import Mathlib

/-!
# Verification of `git-data.js` (jaswantmandloigwl/git-scripts)

Shallow embedding of the pure core of `src/git-data.js`: the diff parser,
the test-file glob filter, the test-block extractor (over a model of the
Babel AST), the commit collector (over a model of the git subprocess),
the change-set resolver, the attribution predicate and the line-count
aggregator, together with theorems settling the specification claims.

External collaborators (the `git` subprocess, the Babel parser, the
`minimatch` library, the filesystem) are modelled as explicit parameters
or faithful re-implementations: a repository is a list of commit records,
`git show` output is an oracle `String → String`, and a parsed file is an
optional AST value.  All string manipulation performed by the JavaScript
code itself (splitting, trimming, regex matching) is embedded directly.

Strings are processed as `List Char`.  `jsSplit sep s` models JavaScript
`s.split(sep)` for a single-character separator, `startsWithLit p s`
models `s.startsWith(p)`, and `trimChars` models `s.trim()`; these are
written structurally so that every definition evaluates by kernel
reduction on concrete inputs.
-/

namespace GitData

/-! ## Character-list models of the JavaScript string primitives -/

/-- JavaScript `s.split(sep)` for a one-character separator: always
returns at least one (possibly empty) piece, and `"".split(sep) = [""]`. -/
def jsSplit (sep : Char) : List Char → List (List Char)
  | [] => [[]]
  | c :: cs =>
    match jsSplit sep cs with
    | [] => [[]]
    | l :: ls => if c = sep then [] :: l :: ls else (c :: l) :: ls

/-- JavaScript `s.startsWith(p)`. -/
def startsWithLit : List Char → List Char → Bool
  | [], _ => true
  | _ :: _, [] => false
  | c :: cs, d :: ds => c == d && startsWithLit cs ds

/-- JavaScript `s.trim()`: whitespace stripped from both ends. -/
def trimChars (s : List Char) : List Char :=
  ((s.dropWhile Char.isWhitespace).reverse.dropWhile Char.isWhitespace).reverse

/-! ## Diff parser (`parseDiff`, src/git-data.js lines 320-337)

The JavaScript code matches each line beginning with `@@` against the
regular expression `@@ -[0-9]+(?:,[0-9]+)? \+([0-9]+)(?:,([0-9]+))? @@`
(an unanchored search) and, on success, resets the cursor to
`parseInt(match[1], 10)`.  We embed the regex as a hand-rolled matcher:
`hunkAt` tries the pattern at the head of a character list and
`searchHunk` scans for the leftmost position where it succeeds; the
quantifiers of this regex are deterministic (digits never overlap with
`,`, ` ` or `@`), so greedy matching without backtracking is exact. -/

/-- Longest prefix of decimal digits, paired with the rest
(the behaviour of the greedy `[0-9]+` pieces of the regex). -/
def splitDigits : List Char → List Char × List Char
  | [] => ([], [])
  | c :: cs =>
    if c.isDigit then
      let (ds, rest) := splitDigits cs
      (c :: ds, rest)
    else ([], c :: cs)

/-- Value of a decimal digit string, the model of `parseInt(s, 10)` on a
string of digits. -/
def digitsVal (ds : List Char) : Nat :=
  ds.foldl (fun a c => 10 * a + (c.toNat - 48)) 0

/-- Consume an exact literal, returning the remainder on success. -/
def expectLit : List Char → List Char → Option (List Char)
  | [], s => some s
  | _ :: _, [] => none
  | c :: cs, d :: ds => if c = d then expectLit cs ds else none

/-- One-or-more digits (`[0-9]+`), returning their value and the rest. -/
def digits1 (s : List Char) : Option (Nat × List Char) :=
  match splitDigits s with
  | ([], _) => none
  | (d :: ds, rest) => some (digitsVal (d :: ds), rest)

/-- The optional `(?:,[0-9]+)?` group: consume `,` followed by at least
one digit when present, otherwise leave the input unchanged. -/
def optCommaDigits (s : List Char) : List Char :=
  match s with
  | [] => s
  | c :: rest =>
    if c = ',' then
      match splitDigits rest with
      | ([], _) => s
      | (_ :: _, r2) => r2
    else s

/-- Try the hunk-header pattern
`@@ -[0-9]+(?:,[0-9]+)? \+([0-9]+)(?:,([0-9]+))? @@` at the head of the
input; return the first capture (the new-file start line) on success. -/
def hunkAt (s : List Char) : Option Nat :=
  (expectLit "@@ -".toList s).bind fun s1 =>
  (digits1 s1).bind fun p =>
  (expectLit " +".toList (optCommaDigits p.2)).bind fun s4 =>
  (digits1 s4).bind fun q =>
  (expectLit " @@".toList (optCommaDigits q.2)).bind fun _ =>
  some q.1

/-- Leftmost unanchored search for the hunk-header pattern, the model of
JavaScript `line.match(re)` for this regex. -/
def searchHunk : List Char → Option Nat
  | [] => none
  | c :: cs =>
    match hunkAt (c :: cs) with
    | some n => some n
    | none => searchHunk cs

/-- One iteration of the `lines.forEach` body of `parseDiff`: state is
the cursor `startLine` together with the accumulated `lineNumbers`. -/
def parseDiffStep (st : Nat × List Nat) (line : List Char) : Nat × List Nat :=
  if startsWithLit "@@".toList line then
    match searchHunk line with
    | some c => (c, st.2)
    | none => st
  else if startsWithLit "+".toList line && !startsWithLit "+++".toList line then
    (st.1 + 1, st.2 ++ [st.1])
  else if !startsWithLit "\\".toList line then
    (st.1 + 1, st.2)
  else st

/-- `parseDiff` (src/git-data.js lines 320-337): split the diff output on
newlines and run the cursor algorithm with `startLine = 0`. -/
def parseDiff (diffOutput : String) : List Nat :=
  ((jsSplit '\n' diffOutput.toList).foldl parseDiffStep (0, [])).2

/-! ## Test-case attribution (`getUpdatedTestCases`, lines 385-389) -/

/-- A test-block line range as produced by the extractor:
`{start: loc.start.line, end: loc.end.line}`. -/
structure TestCase where
  start : Nat
  «end» : Nat
  deriving DecidableEq, Repr

/-- `getUpdatedTestCases` (src/git-data.js lines 385-389): keep the test
cases for which some changed line lies inside `[start, end]`. -/
def getUpdatedTestCases (testCases : List TestCase) (updateLines : List Nat) :
    List TestCase :=
  testCases.filter fun testCase =>
    updateLines.any fun line => line ≥ testCase.start && line ≤ testCase.«end»

/-! ## Test-file filter (`getTestCaseFiles`, lines 313-317)

`minimatch` is an external library; we embed the glob semantics it gives
the five fixed patterns used here: the pattern and the path are split on
`/`, `**` matches any number (possibly zero) of path segments, `*` inside
a segment matches any run of non-separator characters, and (the default
`dot:false` behaviour) a wildcard does not match a segment whose first
character is `.`. -/

/-- Glob match of one pattern segment against one path segment; the only
metacharacter in the five patterns is `*`. -/
def globChars : List Char → List Char → Bool
  | [], s => s.isEmpty
  | c :: ps, s =>
    if c = '*' then (s.tails.map fun t => globChars ps t).any id
    else
      match s with
      | [] => false
      | d :: ds => c == d && globChars ps ds

/-- The suffixes of a segment list reachable by letting `**` skip zero or
more leading segments, none of which may start with `.` (the default
`dot:false` rule). -/
def starStarTails (segs : List (List Char)) : List (List (List Char)) :=
  match segs with
  | [] => [[]]
  | s :: rest =>
    (s :: rest) :: (if !startsWithLit ".".toList s then starStarTails rest else [])

/-- Glob match of a `/`-split pattern against a `/`-split path. -/
def globSegs : List (List Char) → List (List Char) → Bool
  | [], segs => segs.isEmpty
  | p :: ps, segs =>
    if p = "**".toList then
      (starStarTails segs |>.map fun t => globSegs ps t).any id
    else
      match segs with
      | [] => false
      | s :: rest =>
        (if startsWithLit "*".toList p && startsWithLit ".".toList s then false
         else globChars p s) &&
          globSegs ps rest

/-- `minimatch(file, pattern)` for the patterns used by the filter. -/
def minimatch (file pattern : String) : Bool :=
  globSegs (jsSplit '/' pattern.toList) (jsSplit '/' file.toList)

/-- `getTestCaseFiles` (src/git-data.js lines 313-317). -/
def getTestCaseFiles (files : List String) : List String :=
  files.filter fun file =>
    minimatch file "**/*.spec.js" || minimatch file "**/*.test.js" ||
      minimatch file "**/*.test.tsx" || minimatch file "**/*.test.jsx" ||
      minimatch file "**/*.test.ts"

/-! ## Test-block extractor (`getTestCasesLineNumbersByFile`, lines 353-382)

The Babel parser and AST traversal are external; we model the AST as a
tree carrying exactly the fields the JavaScript code reads: the node
`type` tag, `name` (present only on `Identifier` nodes — reading `.name`
on any other node yields `undefined`, modelled by `Option`), `object`,
`property`, `callee`, the child list, and the source location.  `other`
stands for every node kind the visitor does not inspect (literals,
functions, blocks, ...), carrying its children so that call expressions
nested inside callbacks are still visited.  `traverse` visits nodes in
pre-order, as Babel's enter-visitor does. -/

/-- Source location of a node: `loc.start.line` and `loc.end.line`. -/
structure Loc where
  startLine : Nat
  endLine : Nat
  deriving DecidableEq, Repr

/-- Model of a Babel AST node, restricted to the fields the code reads. -/
inductive Node where
  | ident (name : String) (loc : Loc)
  | member (obj : Node) (prop : Node) (loc : Loc)
  | call (callee : Node) (args : List Node) (loc : Loc)
  | other (children : List Node) (loc : Loc)

/-- Reading `node.name`: defined only on `Identifier` nodes. -/
def nodeName : Node → Option String
  | .ident n _ => some n
  | _ => none

/-- The node's `loc`. -/
def nodeLoc : Node → Loc
  | .ident _ l => l
  | .member _ _ l => l
  | .call _ _ l => l
  | .other _ l => l

/-- The condition of the `CallExpression` visitor (lines 366-371):
`(callee.type === 'Identifier' && (callee.name === 'test' || callee.name === 'it')) ||
 (callee.type === 'MemberExpression' && (callee.object.name === 'test' ||
  callee.object.name === 'it') && ['skip','only'].includes(callee.property.name))`. -/
def calleeMatches (callee : Node) : Bool :=
  (match callee with
   | .ident n _ => n == "test" || n == "it"
   | _ => false) ||
  (match callee with
   | .member obj prop _ =>
     (nodeName obj == some "test" || nodeName obj == some "it") &&
       (nodeName prop == some "skip" || nodeName prop == some "only")
   | _ => false)

mutual

/-- Pre-order traversal collecting `{start, end}` for every call
expression whose callee satisfies `calleeMatches` — the body of
`traverse(ast, { CallExpression(path) {...} })`. -/
def collectTestRanges : Node → List TestCase
  | .ident _ _ => []
  | .member obj prop _ => collectTestRanges obj ++ collectTestRanges prop
  | .call callee args l =>
    (if calleeMatches callee then [⟨l.startLine, l.endLine⟩] else []) ++
      (collectTestRanges callee ++ collectTestRangesList args)
  | .other children _ => collectTestRangesList children

/-- Traversal of a child list, left to right. -/
def collectTestRangesList : List Node → List TestCase
  | [] => []
  | n :: ns => collectTestRanges n ++ collectTestRangesList ns

end

mutual

/-- All nodes of a tree in pre-order (the order Babel's traversal visits
them). -/
def allNodes : Node → List Node
  | .ident n l => [.ident n l]
  | .member obj prop l => .member obj prop l :: (allNodes obj ++ allNodes prop)
  | .call callee args l => .call callee args l :: (allNodes callee ++ allNodesList args)
  | .other children l => .other children l :: allNodesList children

/-- All nodes of a forest in pre-order. -/
def allNodesList : List Node → List Node
  | [] => []
  | n :: ns => allNodes n ++ allNodesList ns

end

/-- Whether a node is a call expression recorded by the visitor. -/
def isRecordedCall : Node → Bool
  | .call callee _ _ => calleeMatches callee
  | _ => false

/-- The `{start, end}` record emitted for a recorded node. -/
def locTestCase (n : Node) : TestCase :=
  ⟨(nodeLoc n).startLine, (nodeLoc n).endLine⟩

/-- A sample parsed test file: a `test(...)` call whose callback holds a
nested `it(...)` call, a `test.skip(...)` call, and an unrelated
`foo(...)` call. -/
def sampleAst : Node :=
  .other
    [.call (.ident "test" ⟨1, 1⟩)
        [.other [] ⟨1, 1⟩,
          .other [.call (.ident "it" ⟨2, 3⟩) [] ⟨2, 3⟩] ⟨1, 4⟩] ⟨1, 4⟩,
      .call (.member (.ident "test" ⟨6, 6⟩) (.ident "skip" ⟨6, 6⟩) ⟨6, 6⟩)
        [] ⟨6, 7⟩,
      .call (.ident "foo" ⟨9, 9⟩) [] ⟨9, 9⟩]
    ⟨1, 9⟩

/-- `getTestCasesLineNumbersByFile` (src/git-data.js lines 353-382).  The
filesystem/parser pair is the oracle `fs : String → Option Node`:
`fs filePath = none` models `fs.existsSync(filePath)` returning false,
and `some ast` models the parsed contents of an existing file. -/
def getTestCasesLineNumbersByFile (fs : String → Option Node)
    (filePath : String) : List TestCase :=
  match fs filePath with
  | none => []
  | some ast => collectTestRanges ast

/-! ## Commit collector (`getCommits`, lines 217-291)

The git subprocess is external, so the repository is modelled from the
spec: a list of commit records (hash, author name, author time).
`git log --author=<p> --since=<lo> --until=<hi> --pretty=format:"%H"`
is modelled as a filter: author matching is substring containment of the
pattern in the recorded author name, and the date window is inclusive on
both ends ("window boundaries interpreted as the full day").  Dates are
modelled as day indices, times as seconds, so `"<d>T00:00:00"` denotes
`86400*d` and `"<d>T23:59:59"` denotes `86400*d + 86399`.  Hashes are
assumed (as git guarantees) to contain no spaces or newlines, so the
`"%H %an"` line of method 3 destructures into the hash and the author
name exactly. -/

/-- JavaScript `hay.includes(needle)`: substring containment. -/
def containsLit (hay needle : List Char) : Bool :=
  (hay.tails.map fun t => startsWithLit needle t).any id

/-- JavaScript `s.toLowerCase()` (ASCII model). -/
def lowerChars (s : List Char) : List Char :=
  s.map Char.toLower

/-- `Set.prototype.add` on a list kept in first-insertion order. -/
def setAdd {α : Type} [DecidableEq α] (s : List α) (x : α) : List α :=
  if x ∈ s then s else s ++ [x]

/-- Adding a whole batch of elements to the set, in order. -/
def setAddAll {α : Type} [DecidableEq α] (s : List α) (xs : List α) : List α :=
  xs.foldl setAdd s

/-- A commit record of the modelled repository. -/
structure GitCommit where
  hash : String
  authorName : String
  time : Int
  deriving DecidableEq, Repr

/-- Modelled from the spec: the `git log --author=<pattern>
--since=<lo> --until=<hi> --pretty=format:"%H"` query — "exact
author-name substring match and date window". -/
def gitLog (repo : List GitCommit) (pattern : List Char) (lo hi : Int) :
    List GitCommit :=
  repo.filter fun c =>
    containsLit c.authorName.toList pattern &&
      decide (lo ≤ c.time) && decide (c.time ≤ hi)

/-- `"<d>T00:00:00"`: the first second of calendar day `d`. -/
def dayStart (d : Int) : Int := 86400 * d

/-- `"<d>T23:59:59"`: the last second of calendar day `d`. -/
def dayEnd (d : Int) : Int := 86400 * d + 86399

/-- `getCommits` (src/git-data.js lines 217-291): union of the three
author-matching strategies over the full-day window, de-duplicated via
the `allCommits` set.  The debug-only queries of the function (author
listing, date-range listing, recent-commits listing) do not contribute
to the returned value and are not modelled. -/
def getCommits (AUTHOR : String) (SINCE_DATE UNTIL_DATE : Int)
    (repo : List GitCommit) : List String :=
  let lo := dayStart SINCE_DATE
  let hi := dayEnd UNTIL_DATE
  -- Method 1: exact author name match
  let m1 := ((gitLog repo AUTHOR.toList lo hi).map GitCommit.hash).filter
    fun hash => !(trimChars hash.toList).isEmpty
  -- Method 2: reversed name format (Last, First)
  let nameParts := jsSplit ' ' AUTHOR.toList
  let m2 :=
    if nameParts.length ≥ 2 then
      let reversedAuthor :=
        nameParts.getLastD [] ++ ", ".toList ++
          List.intercalate " ".toList nameParts.dropLast
      ((gitLog repo reversedAuthor lo hi).map GitCommit.hash).filter
        fun hash => !(trimChars hash.toList).isEmpty
    else []
  -- Method 3: partial matching with the first name token, post-filtered
  let firstNameOnly := nameParts.headD []
  let m3 := (((gitLog repo firstNameOnly lo hi).filter fun c =>
      !(trimChars (c.hash.toList ++ ' ' :: c.authorName.toList)).isEmpty).filter
        fun c =>
          containsLit (lowerChars c.authorName.toList)
              (lowerChars (nameParts.headD [])) &&
            containsLit (lowerChars c.authorName.toList)
              (lowerChars (nameParts.getLastD []))).map GitCommit.hash
  setAddAll (setAddAll (setAddAll [] m1) m2) m3

/-! ## Change-set resolver (`getListOfFiles`, lines 294-310, and
`getTestCasesUpdatedLineNumbersByFile`, lines 340-350)

`git show --pretty="" --name-only <commit>` and
`git diff -U0 <commit>^ <commit> -- <file>` are oracles from the commit
hash to the raw stdout string (`runCommand` returns `''` on failure, so
a failed query is just the empty string). -/

/-- The per-commit inner fold of `getListOfFiles`
(`stdout.split('\n').forEach(file => { ... files.add(trimmedFile) })`). -/
def addFileLines (files : List String) (lines : List (List Char)) :
    List String :=
  lines.foldl
    (fun fs file =>
      let trimmedFile := trimChars file
      if trimmedFile.isEmpty then fs else setAdd fs (String.mk trimmedFile))
    files

/-- `getListOfFiles` (src/git-data.js lines 294-310): union of the
trimmed, non-blank changed-file names across commits, first-insertion
order. -/
def getListOfFiles (commits : List String) (gitShowNameOnly : String → String) :
    List String :=
  commits.foldl
    (fun files commit =>
      let stdout := gitShowNameOnly commit
      if stdout.toList.isEmpty then files
      else addFileLines files (jsSplit '\n' stdout.toList))
    []

/-- `getTestCasesUpdatedLineNumbersByFile` (src/git-data.js lines
340-350): concatenate the parsed added-line numbers across commits. -/
def getTestCasesUpdatedLineNumbersByFile (commits : List String)
    (gitDiffFile : String → String) : List Nat :=
  commits.foldl
    (fun updatedLineNumbers commit =>
      let diffOutput := gitDiffFile commit
      if diffOutput.toList.isEmpty then updatedLineNumbers
      else updatedLineNumbers ++ parseDiff diffOutput)
    []

/-! ## Line-count aggregator (`getTotalLinesByAuthor`, lines 392-405) -/

/-- The regex test `/^\d+$/.test(val)`. -/
def allDigits1 (val : List Char) : Bool :=
  !val.isEmpty && val.all Char.isDigit

/-- `getTotalLinesByAuthor` (src/git-data.js lines 392-405): per commit,
take the first tab-separated field of every numstat line, keep the
all-digit ones, and sum their values. -/
def getTotalLinesByAuthor (commits : List String)
    (gitShowNumstat : String → String) : Nat :=
  commits.foldl
    (fun totalLines commit =>
      let stdout := gitShowNumstat commit
      let addedLines :=
        (((jsSplit '\n' stdout.toList).map fun line =>
            (jsSplit '\t' line).headD []).filter allDigits1).foldl
          (fun sum val => sum + digitsVal val) 0
      totalLines + addedLines)
    0

/-! ## Specification-side definitions

Used to state the claims; compared against the embedded code. -/

/-- The optional `,<digits>` part of a hunk header, as written text. -/
def optPart : Option (List Char) → List Char
  | some b => ',' :: b
  | none => []

/-- A well-formed hunk-header line
`@@ -<as>[,<bs>] +<cs>[,<ds>] @@<rest>` as raw characters. -/
def hunkHeaderStr (as : List Char) (bs : Option (List Char)) (cs : List Char)
    (ds : Option (List Char)) (rest : List Char) : List Char :=
  "@@ -".toList ++ (as ++ (optPart bs ++ (" +".toList ++ (cs ++ (optPart ds ++
    (" @@".toList ++ rest))))))

/-- A nonempty string of decimal digits. -/
def DigitStr (s : List Char) : Prop :=
  s ≠ [] ∧ ∀ c ∈ s, c.isDigit = true

/-- An optional hunk-header count field: absent, or a digit string. -/
def OptDigitStr : Option (List Char) → Prop
  | some b => DigitStr b
  | none => True

/-- The added-line contribution of one numstat line, as the spec states
it: the value of the first tab-separated field when it is a well-formed
non-negative integer, and `0` otherwise. -/
def numstatLineAdded (line : List Char) : Nat :=
  let val := (jsSplit '\t' line).headD []
  if allDigits1 val then digitsVal val else 0

/-! ## Theorems -/

/-- C2: `getUpdatedTestCases` classifies a test case `{start, end}` as
updated iff some changed line number `L` satisfies `start ≤ L ≤ end`,
both endpoints inclusive; in particular for `{start:10, end:20}` the
changed set `{19}` flags it, `{21}` does not, and the boundary values
`10` and `20` each flag it. -/
theorem claim2_getUpdatedTestCases_inclusive_range :
    (∀ (testCases : List TestCase) (updateLines : List Nat) (tc : TestCase),
        tc ∈ getUpdatedTestCases testCases updateLines ↔
          tc ∈ testCases ∧ ∃ l ∈ updateLines, tc.start ≤ l ∧ l ≤ tc.«end») ∧
      getUpdatedTestCases [⟨10, 20⟩] [19] = [⟨10, 20⟩] ∧
      getUpdatedTestCases [⟨10, 20⟩] [21] = [] ∧
      getUpdatedTestCases [⟨10, 20⟩] [10] = [⟨10, 20⟩] ∧
      getUpdatedTestCases [⟨10, 20⟩] [20] = [⟨10, 20⟩] := by
  refine ⟨?_, by decide, by decide, by decide, by decide⟩
  intro testCases updateLines tc
  simp [getUpdatedTestCases, List.mem_filter, List.any_eq_true]

/-- C5: `getTestCaseFiles` keeps a path iff it matches at least one of
the five glob patterns `**/*.spec.js`, `**/*.test.js`, `**/*.test.tsx`,
`**/*.test.jsx`, `**/*.test.ts`; in particular `src/foo.test.ts` and
`src/bar.spec.js` are kept while `src/foo.ts` and `src/foo.testx.js`
are rejected. -/
theorem claim5_getTestCaseFiles_glob_filter :
    (∀ (files : List String) (file : String),
        file ∈ getTestCaseFiles files ↔
          file ∈ files ∧
            (minimatch file "**/*.spec.js" = true ∨
              minimatch file "**/*.test.js" = true ∨
              minimatch file "**/*.test.tsx" = true ∨
              minimatch file "**/*.test.jsx" = true ∨
              minimatch file "**/*.test.ts" = true)) ∧
      getTestCaseFiles ["src/foo.test.ts", "src/bar.spec.js", "src/foo.ts",
          "src/foo.testx.js"] =
        ["src/foo.test.ts", "src/bar.spec.js"] := by
  refine ⟨?_, by decide⟩
  intro files file
  simp [getTestCaseFiles, List.mem_filter, Bool.or_eq_true, or_assoc]

/-- C9: when the file does not exist (`fs.existsSync` false, modelled by
the filesystem oracle returning `none`), `getTestCasesLineNumbersByFile`
returns the empty sequence rather than raising an error. -/
theorem claim9_missing_file_empty (fs : String → Option Node)
    (filePath : String) (h : fs filePath = none) :
    getTestCasesLineNumbersByFile fs filePath = [] := by
  simp [getTestCasesLineNumbersByFile, h]

/-- Witness for C9 at a concrete missing path. -/
theorem claim9_missing_file_empty_witness :
    getTestCasesLineNumbersByFile (fun _ => none) "nope.test.js" = [] :=
  claim9_missing_file_empty (fun _ => none) "nope.test.js" rfl

/-! ### Line-count aggregator (C7) -/

/-- Folding `+ f x` over a list starting from `n` sums the images. -/
theorem foldl_add_map {α : Type} (f : α → Nat) (l : List α) (n : Nat) :
    l.foldl (fun a x => a + f x) n = n + (l.map f).sum := by
  induction l generalizing n with
  | nil => simp
  | cons x xs ih => simp [ih, Nat.add_assoc]

/-- Summing over a filtered list equals summing an `if`-guarded term. -/
theorem sum_map_filter_eq {α : Type} (p : α → Bool) (g : α → Nat) (l : List α) :
    ((l.filter p).map g).sum = (l.map fun x => if p x then g x else 0).sum := by
  induction l with
  | nil => rfl
  | cons x xs ih => by_cases h : p x <;> simp [List.filter_cons, h, ih]

/-- C7: `getTotalLinesByAuthor` sums, over all commits and numstat
lines, the first tab-separated field restricted to well-formed
non-negative integers; a non-numeric first field (such as the binary
marker `-`) contributes `0` and raises no error. -/
theorem claim7_getTotalLinesByAuthor_numstat_sum :
    (∀ (commits : List String) (gitShowNumstat : String → String),
        getTotalLinesByAuthor commits gitShowNumstat =
          (commits.map fun commit =>
              ((jsSplit '\n' (gitShowNumstat commit).toList).map
                  numstatLineAdded).sum).sum) ∧
      numstatLineAdded "-\t-\tbinaryfile".toList = 0 ∧
      getTotalLinesByAuthor ["c1"] (fun _ => "-\t-\tbinaryfile") = 0 ∧
      getTotalLinesByAuthor ["c1"]
          (fun _ => "5\t2\ta.js\n-\t-\tbin.png\n12\t0\tc.ts") = 17 := by
  refine ⟨?_, by decide, by decide, by decide⟩
  intro commits gitShowNumstat
  have hnl : numstatLineAdded = fun line =>
      if allDigits1 ((jsSplit '\t' line).headD []) then
        digitsVal ((jsSplit '\t' line).headD []) else 0 := rfl
  simp only [getTotalLinesByAuthor, foldl_add_map, Nat.zero_add,
    sum_map_filter_eq, List.map_map, hnl]
  simp [Function.comp_def]

/-! ### Change-set resolver: file lists (C8) -/

/-- Membership after a `Set.add` step. -/
theorem mem_setAdd {α : Type} [DecidableEq α] (s : List α) (x y : α) :
    y ∈ setAdd s x ↔ y ∈ s ∨ y = x := by
  by_cases h : x ∈ s
  · simp only [setAdd, if_pos h]
    exact ⟨Or.inl, fun hy => hy.elim id fun e => e ▸ h⟩
  · simp [setAdd, if_neg h]

/-- `Set.add` preserves distinctness. -/
theorem nodup_setAdd {α : Type} [DecidableEq α] (s : List α) (x : α)
    (h : s.Nodup) : (setAdd s x).Nodup := by
  by_cases hx : x ∈ s
  · simpa [setAdd, if_pos hx] using h
  · simp [setAdd, if_neg hx, List.nodup_append, h, hx]

/-- Membership in the inner fold of `getListOfFiles`. -/
theorem mem_addFileLines (lines : List (List Char)) (files : List String)
    (f : String) :
    f ∈ addFileLines files lines ↔
      f ∈ files ∨ ∃ line ∈ lines,
        (trimChars line).isEmpty = false ∧ f = String.mk (trimChars line) := by
  induction lines generalizing files with
  | nil => simp [addFileLines]
  | cons l ls ih =>
    simp only [addFileLines, List.foldl_cons] at ih ⊢
    by_cases h : (trimChars l).isEmpty
    · rw [if_pos h, ih]
      constructor
      · rintro (hf | ⟨line, hline, hne, rfl⟩)
        · exact Or.inl hf
        · exact Or.inr ⟨line, List.mem_cons_of_mem _ hline, hne, rfl⟩
      · rintro (hf | ⟨line, hline, hne, rfl⟩)
        · exact Or.inl hf
        · rcases List.mem_cons.mp hline with rfl | hline
          · simp [h] at hne
          · exact Or.inr ⟨line, hline, hne, rfl⟩
    · rw [if_neg h, ih]
      constructor
      · rintro (hf | ⟨line, hline, hne, rfl⟩)
        · rcases (mem_setAdd _ _ _).mp hf with hf | rfl
          · exact Or.inl hf
          · exact Or.inr ⟨l, List.mem_cons_self _ _,
              Bool.eq_false_iff.mpr h, rfl⟩
        · exact Or.inr ⟨line, List.mem_cons_of_mem _ hline, hne, rfl⟩
      · rintro (hf | ⟨line, hline, hne, rfl⟩)
        · exact Or.inl ((mem_setAdd _ _ _).mpr (Or.inl hf))
        · rcases List.mem_cons.mp hline with rfl | hline
          · exact Or.inl ((mem_setAdd _ _ _).mpr (Or.inr rfl))
          · exact Or.inr ⟨line, hline, hne, rfl⟩

/-- The inner fold of `getListOfFiles` preserves distinctness. -/
theorem nodup_addFileLines (lines : List (List Char)) (files : List String)
    (h : files.Nodup) : (addFileLines files lines).Nodup := by
  induction lines generalizing files with
  | nil => simpa [addFileLines] using h
  | cons l ls ih =>
    simp only [addFileLines, List.foldl_cons]
    by_cases hl : (trimChars l).isEmpty
    · rw [if_pos hl]; exact ih _ h
    · rw [if_neg hl]; exact ih _ (nodup_setAdd _ _ h)

/-- `getListOfFiles` is the outer fold of `addFileLines`. -/
theorem getListOfFiles_eq_foldl (commits : List String)
    (gitShowNameOnly : String → String) :
    getListOfFiles commits gitShowNameOnly =
      commits.foldl
        (fun files commit =>
          if (gitShowNameOnly commit).toList.isEmpty then files
          else addFileLines files
            (jsSplit '\n' (gitShowNameOnly commit).toList))
        [] := rfl

/-- Membership in `getListOfFiles`, over any accumulator. -/
theorem mem_getListOfFiles_aux (commits : List String)
    (gitShowNameOnly : String → String) (files : List String) (f : String) :
    f ∈ commits.foldl
        (fun files commit =>
          if (gitShowNameOnly commit).toList.isEmpty then files
          else addFileLines files
            (jsSplit '\n' (gitShowNameOnly commit).toList))
        files ↔
      f ∈ files ∨ ∃ commit ∈ commits,
        (gitShowNameOnly commit).toList.isEmpty = false ∧
          ∃ line ∈ jsSplit '\n' (gitShowNameOnly commit).toList,
            (trimChars line).isEmpty = false ∧
              f = String.mk (trimChars line) := by
  induction commits generalizing files with
  | nil => simp
  | cons c cs ih =>
    simp only [List.foldl_cons]
    by_cases h : (gitShowNameOnly c).toList.isEmpty
    · rw [if_pos h, ih]
      constructor
      · rintro (hf | ⟨commit, hc, hne, rest⟩)
        · exact Or.inl hf
        · exact Or.inr ⟨commit, List.mem_cons_of_mem _ hc, hne, rest⟩
      · rintro (hf | ⟨commit, hc, hne, rest⟩)
        · exact Or.inl hf
        · rcases List.mem_cons.mp hc with rfl | hc
          · rw [h] at hne
            exact Bool.noConfusion hne
          · exact Or.inr ⟨commit, hc, hne, rest⟩
    · rw [if_neg h, ih]
      constructor
      · rintro (hf | ⟨commit, hc, hne, rest⟩)
        · rcases (mem_addFileLines _ _ _).mp hf with hf | ⟨line, hl, hn, hf⟩
          · exact Or.inl hf
          · exact Or.inr ⟨c, List.mem_cons_self _ _,
              Bool.eq_false_iff.mpr h, line, hl, hn, hf⟩
        · exact Or.inr ⟨commit, List.mem_cons_of_mem _ hc, hne, rest⟩
      · rintro (hf | ⟨commit, hc, hne, line, hl, hn, hf⟩)
        · exact Or.inl ((mem_addFileLines _ _ _).mpr (Or.inl hf))
        · rcases List.mem_cons.mp hc with rfl | hc
          · exact Or.inl ((mem_addFileLines _ _ _).mpr
              (Or.inr ⟨line, hl, hn, hf⟩))
          · exact Or.inr ⟨commit, hc, hne, line, hl, hn, hf⟩

/-- The outer fold of `getListOfFiles` preserves distinctness. -/
theorem nodup_getListOfFiles_aux (commits : List String)
    (gitShowNameOnly : String → String) :
    ∀ files : List String, files.Nodup →
      (commits.foldl
        (fun files commit =>
          if (gitShowNameOnly commit).toList.isEmpty then files
          else addFileLines files
            (jsSplit '\n' (gitShowNameOnly commit).toList))
        files).Nodup := by
  induction commits with
  | nil => intro files h; simpa using h
  | cons c cs ih =>
    intro files h
    simp only [List.foldl_cons]
    by_cases hc : (gitShowNameOnly c).toList.isEmpty
    · rw [if_pos hc]; exact ih _ h
    · rw [if_neg hc]; exact ih _ (nodup_addFileLines _ _ h)

/-- A head surviving `dropWhile p` falsifies `p`. -/
theorem dropWhile_head_false {α : Type} (p : α → Bool) :
    ∀ (l : List α) (c : α) (cs : List α), l.dropWhile p = c :: cs →
      p c = false := by
  intro l
  induction l with
  | nil => intro c cs h; simp [List.dropWhile] at h
  | cons x xs ih =>
    intro c cs h
    rw [List.dropWhile_cons] at h
    by_cases hx : p x
    · exact ih c cs (by simpa [hx] using h)
    · obtain ⟨rfl, -⟩ : x = c ∧ xs = cs := by
        simpa [hx] using h
      exact Bool.eq_false_iff.mpr hx

/-- A non-empty trim result is non-blank: it contains a non-whitespace
character. -/
theorem trimChars_not_blank (s : List Char)
    (h : (trimChars s).isEmpty = false) :
    trimChars s ≠ [] ∧ ∃ c ∈ trimChars s, c.isWhitespace = false := by
  have hne : trimChars s ≠ [] := by
    intro he
    rw [he] at h
    simp at h
  refine ⟨hne, ?_⟩
  unfold trimChars at hne ⊢
  rcases hd : (s.dropWhile Char.isWhitespace).reverse.dropWhile
      Char.isWhitespace with _ | ⟨c, cs⟩
  · rw [hd] at hne
    simp at hne
  · exact ⟨c, List.mem_reverse.mpr (List.mem_cons_self _ _),
      dropWhile_head_false _ _ c cs hd⟩

/-- C8: `getListOfFiles` returns the de-duplicated union, across all
commits, of the commit's changed-file names, blank entries trimmed away:
the result has no duplicates, no empty or whitespace-only entries, and
contains exactly the trimmed non-blank lines of some commit's file
listing. -/
theorem claim8_getListOfFiles_union_dedup (commits : List String)
    (gitShowNameOnly : String → String) :
    (getListOfFiles commits gitShowNameOnly).Nodup ∧
      (∀ f ∈ getListOfFiles commits gitShowNameOnly,
          f.toList ≠ [] ∧ ∃ c ∈ f.toList, c.isWhitespace = false) ∧
      (∀ f, f ∈ getListOfFiles commits gitShowNameOnly ↔
          ∃ commit ∈ commits,
            (gitShowNameOnly commit).toList.isEmpty = false ∧
              ∃ line ∈ jsSplit '\n' (gitShowNameOnly commit).toList,
                (trimChars line).isEmpty = false ∧
                  f = String.mk (trimChars line)) := by
  have hmem : ∀ f, f ∈ getListOfFiles commits gitShowNameOnly ↔
      ∃ commit ∈ commits,
        (gitShowNameOnly commit).toList.isEmpty = false ∧
          ∃ line ∈ jsSplit '\n' (gitShowNameOnly commit).toList,
            (trimChars line).isEmpty = false ∧
              f = String.mk (trimChars line) := by
    intro f
    rw [getListOfFiles_eq_foldl, mem_getListOfFiles_aux]
    simp
  refine ⟨?_, ?_, hmem⟩
  · rw [getListOfFiles_eq_foldl]
    exact nodup_getListOfFiles_aux commits gitShowNameOnly [] List.nodup_nil
  · intro f hf
    rcases (hmem f).mp hf with ⟨commit, -, -, line, -, hline, rfl⟩
    rcases trimChars_not_blank line hline with ⟨hne, c, hc, hw⟩
    exact ⟨hne, c, hc, hw⟩

/-- Witness for C8 at a concrete commit list and file listing. -/
theorem claim8_getListOfFiles_union_dedup_witness :
    ("a.js" ∈ getListOfFiles ["c1"] (fun _ => "a.js\n  b.js \n\na.js")) ∧
      "a.js".toList ≠ [] ∧ ∃ c ∈ "a.js".toList, c.isWhitespace = false := by
  have h : "a.js" ∈ getListOfFiles ["c1"] (fun _ => "a.js\n  b.js \n\na.js") := by
    decide
  exact ⟨h, (claim8_getListOfFiles_union_dedup ["c1"]
    (fun _ => "a.js\n  b.js \n\na.js")).2.1 "a.js" h⟩

/-! ### Test-block extractor (C6) -/

mutual

/-- The traversal records exactly the matching call expressions, in
pre-order, emitting each one's source location. -/
theorem collectTestRanges_eq_filter (n : Node) :
    collectTestRanges n =
      ((allNodes n).filter isRecordedCall).map locTestCase := by
  cases n with
  | ident name l =>
    simp [collectTestRanges, allNodes, isRecordedCall]
  | member obj prop l =>
    simp [collectTestRanges, allNodes, isRecordedCall, List.filter_append,
      collectTestRanges_eq_filter obj, collectTestRanges_eq_filter prop]
  | call callee args l =>
    by_cases h : calleeMatches callee <;>
      simp [collectTestRanges, allNodes, isRecordedCall, h,
        List.filter_append, collectTestRanges_eq_filter callee,
        collectTestRangesList_eq_filter args, locTestCase, nodeLoc]
  | other children l =>
    simp [collectTestRanges, allNodes, isRecordedCall,
      collectTestRangesList_eq_filter children]

/-- Forest version of `collectTestRanges_eq_filter`. -/
theorem collectTestRangesList_eq_filter (ns : List Node) :
    collectTestRangesList ns =
      ((allNodesList ns).filter isRecordedCall).map locTestCase := by
  cases ns with
  | nil => simp [collectTestRangesList, allNodesList]
  | cons n ns =>
    simp [collectTestRangesList, allNodesList, List.filter_append,
      collectTestRanges_eq_filter n, collectTestRangesList_eq_filter ns]

end

/-- C6: the extractor records a call expression iff its callee is a bare
identifier named `test` or `it`, or a member access whose object is an
identifier named `test` or `it` and whose property name is `skip` or
`only`; for each recorded call it emits the node's own start and end
lines; and on the sample file it returns the three full call spans. -/
theorem claim6_extractor_predicate_and_ranges :
    (∀ callee : Node, calleeMatches callee = true ↔
        ((∃ name l, callee = Node.ident name l ∧
            (name = "test" ∨ name = "it")) ∨
          (∃ obj prop l, callee = Node.member obj prop l ∧
            (nodeName obj = some "test" ∨ nodeName obj = some "it") ∧
            (nodeName prop = some "skip" ∨ nodeName prop = some "only")))) ∧
      (∀ (fs : String → Option Node) (filePath : String) (ast : Node),
          fs filePath = some ast →
            getTestCasesLineNumbersByFile fs filePath =
              ((allNodes ast).filter isRecordedCall).map locTestCase) ∧
      getTestCasesLineNumbersByFile (fun _ => some sampleAst) "a.test.js" =
        [⟨1, 4⟩, ⟨2, 3⟩, ⟨6, 7⟩] := by
  refine ⟨?_, ?_, ?_⟩
  · intro callee
    cases callee with
    | ident name l => simp [calleeMatches]
    | member obj prop l =>
      simp [calleeMatches, nodeName]
      exact ⟨fun h => ⟨obj, prop, ⟨rfl, rfl⟩, h⟩,
        by rintro ⟨o, p, ⟨rfl, rfl⟩, h⟩; exact h⟩
    | call c a l => simp [calleeMatches]
    | other c l => simp [calleeMatches]
  · intro fs filePath ast h
    simp [getTestCasesLineNumbersByFile, h, collectTestRanges_eq_filter]
  · simp [getTestCasesLineNumbersByFile, sampleAst, collectTestRanges,
      collectTestRangesList, calleeMatches, nodeName]

/-- Witness for C6 on the sample file. -/
theorem claim6_extractor_predicate_and_ranges_witness :
    getTestCasesLineNumbersByFile (fun _ => some sampleAst) "a.test.js" =
      ((allNodes sampleAst).filter isRecordedCall).map locTestCase :=
  claim6_extractor_predicate_and_ranges.2.1
    (fun _ => some sampleAst) "a.test.js" sampleAst rfl

/-! ### Diff parser: hunk-header matching (C1) -/

/-- `expectLit` consumes exactly its literal. -/
theorem expectLit_append (p s : List Char) : expectLit p (p ++ s) = some s := by
  induction p with
  | nil => rfl
  | cons c cs ih => simp [expectLit, ih]

/-- `splitDigits` splits a digit prefix from a non-digit-headed rest. -/
theorem splitDigits_append (ds r : List Char)
    (hds : ∀ c ∈ ds, c.isDigit = true)
    (hr : ∀ x xs, r = x :: xs → x.isDigit = false) :
    splitDigits (ds ++ r) = (ds, r) := by
  induction ds with
  | nil =>
    cases r with
    | nil => rfl
    | cons x xs => simp [splitDigits, hr x xs rfl]
  | cons d dt ih =>
    have hd := hds d (List.mem_cons_self _ _)
    simp [splitDigits, hd,
      ih fun c hc => hds c (List.mem_cons_of_mem _ hc)]

/-- `digits1` reads off a leading digit string. -/
theorem digits1_append (ds r : List Char) (hne : ds ≠ [])
    (hds : ∀ c ∈ ds, c.isDigit = true)
    (hr : ∀ x xs, r = x :: xs → x.isDigit = false) :
    digits1 (ds ++ r) = some (digitsVal ds, r) := by
  cases ds with
  | nil => exact absurd rfl hne
  | cons d dt =>
    unfold digits1
    rw [splitDigits_append (d :: dt) r hds hr]

/-- The optional group leaves a non-comma-headed input unchanged. -/
theorem optCommaDigits_no (z : List Char)
    (hz : ∀ x xs, z = x :: xs → x ≠ ',') :
    optCommaDigits z = z := by
  cases z with
  | nil => rfl
  | cons x xs => simp [optCommaDigits, hz x xs rfl]

/-- The optional group consumes exactly the written `,digits` part. -/
theorem optPart_consume (o : Option (List Char)) (z : List Char)
    (ho : OptDigitStr o)
    (hz : ∀ x xs, z = x :: xs → x.isDigit = false ∧ x ≠ ',') :
    optCommaDigits (optPart o ++ z) = z := by
  cases o with
  | none =>
    simp only [optPart, List.nil_append]
    exact optCommaDigits_no z fun x xs h => (hz x xs h).2
  | some b =>
    obtain ⟨hbne, hbd⟩ := ho
    cases b with
    | nil => exact absurd rfl hbne
    | cons x xs =>
      simp only [optPart, List.cons_append]
      show (match splitDigits (x :: (xs ++ z)) with
            | ([], _) => ',' :: (x :: (xs ++ z))
            | (_ :: _, r2) => r2) = z
      rw [show splitDigits (x :: (xs ++ z)) = (x :: xs, z) from
        splitDigits_append (x :: xs) z hbd fun a as h => (hz a as h).1]

/-- A number field followed by its optional count part parses as the
number. -/
theorem digits1_optPart (v : List Char) (o : Option (List Char))
    (z : List Char) (hv : DigitStr v) (ho : OptDigitStr o)
    (hz : ∀ x xs, z = x :: xs → x.isDigit = false ∧ x ≠ ',') :
    digits1 (v ++ (optPart o ++ z)) = some (digitsVal v, optPart o ++ z) := by
  apply digits1_append v _ hv.1 hv.2
  intro x xs h
  cases o with
  | none =>
    simp only [optPart, List.nil_append] at h
    exact (hz x xs h).1
  | some b =>
    simp only [optPart, List.cons_append] at h
    injection h with h1 _
    rw [← h1]
    decide

/-- The continuation after the first number (` +` onwards) is neither a
digit nor a comma at its head. -/
theorem head_plus_cond (w : List Char) :
    ∀ x xs, (" +".toList ++ w) = x :: xs → x.isDigit = false ∧ x ≠ ',' := by
  intro x xs h
  have h2 : (' ' :: ('+' :: w)) = x :: xs := h
  injection h2 with h1 _
  rw [← h1]
  exact ⟨by decide, by decide⟩

/-- The continuation after the second number (` @@` onwards) is neither
a digit nor a comma at its head. -/
theorem head_atat_cond (w : List Char) :
    ∀ x xs, (" @@".toList ++ w) = x :: xs → x.isDigit = false ∧ x ≠ ',' := by
  intro x xs h
  have h2 : (' ' :: ('@' :: ('@' :: w))) = x :: xs := h
  injection h2 with h1 _
  rw [← h1]
  exact ⟨by decide, by decide⟩

/-- The regex matcher accepts every well-formed hunk header at position
0 and returns the value of its third field (`c` of `@@ -a[,b] +c[,d] @@`). -/
theorem hunkAt_header (as cs : List Char) (bs ds : Option (List Char))
    (rest : List Char) (has : DigitStr as) (hbs : OptDigitStr bs)
    (hcs : DigitStr cs) (hds : OptDigitStr ds) :
    hunkAt (hunkHeaderStr as bs cs ds rest) = some (digitsVal cs) := by
  unfold hunkHeaderStr hunkAt
  rw [expectLit_append]
  simp only [Option.some_bind']
  rw [digits1_optPart as bs _ has hbs (head_plus_cond _)]
  simp only [Option.some_bind']
  rw [optPart_consume bs _ hbs (head_plus_cond _), expectLit_append]
  simp only [Option.some_bind']
  rw [digits1_optPart cs ds _ hcs hds (head_atat_cond _)]
  simp only [Option.some_bind']
  rw [optPart_consume ds _ hds (head_atat_cond _), expectLit_append]
  simp only [Option.some_bind']

/-- C1: `parseDiff` follows the stated cursor algorithm — a hunk header
`@@ -a[,b] +c[,d] @@` resets the cursor to `c` (the leftmost regex match
of a `@@`-led line), a line beginning with `+` but not `+++` records the
cursor and increments it, any other line not beginning with `\`
increments without recording — and on the diff
`@@ -5,2 +5,3 @@` / ` ctx` / `+added1` / `+added2` it returns `[6, 7]`. -/
theorem claim1_parseDiff_cursor_algorithm :
    (∀ (as cs : List Char) (bs ds : Option (List Char)) (rest : List Char),
        DigitStr as → OptDigitStr bs → DigitStr cs → OptDigitStr ds →
          searchHunk (hunkHeaderStr as bs cs ds rest) = some (digitsVal cs)) ∧
      (∀ (st : Nat × List Nat) (line : List Char) (c : Nat),
          startsWithLit "@@".toList line = true →
            searchHunk line = some c →
            parseDiffStep st line = (c, st.2)) ∧
      (∀ (st : Nat × List Nat) (line : List Char),
          startsWithLit "@@".toList line = false →
            (startsWithLit "+".toList line &&
              !startsWithLit "+++".toList line) = true →
            parseDiffStep st line = (st.1 + 1, st.2 ++ [st.1])) ∧
      (∀ (st : Nat × List Nat) (line : List Char),
          startsWithLit "@@".toList line = false →
            (startsWithLit "+".toList line &&
              !startsWithLit "+++".toList line) = false →
            startsWithLit "\\".toList line = false →
            parseDiffStep st line = (st.1 + 1, st.2)) ∧
      parseDiff "@@ -5,2 +5,3 @@\n ctx\n+added1\n+added2" = [6, 7] := by
  refine ⟨?_, ?_, ?_, ?_, by decide⟩
  · intro as cs bs ds rest has hbs hcs hds
    have h := hunkAt_header as cs bs ds rest has hbs hcs hds
    have e : hunkHeaderStr as bs cs ds rest =
        '@' :: ('@' :: (' ' :: ('-' :: (as ++ (optPart bs ++ (" +".toList ++
          (cs ++ (optPart ds ++ (" @@".toList ++ rest))))))))) := rfl
    rw [e] at h ⊢
    rw [searchHunk, h]
  · intro st line c h1 h2
    unfold parseDiffStep
    rw [if_pos h1, h2]
  · intro st line h1 h2
    unfold parseDiffStep
    rw [if_neg (by intro hc; rw [h1] at hc; exact Bool.noConfusion hc),
      if_pos h2]
  · intro st line h1 h2 h3
    unfold parseDiffStep
    rw [if_neg (by intro hc; rw [h1] at hc; exact Bool.noConfusion hc),
      if_neg (by intro hc; rw [h2] at hc; exact Bool.noConfusion hc),
      if_pos (by rw [h3]; rfl)]

/-- Witness for C1: the header lemma at `@@ -5,2 +5,3 @@ tail` and the
non-recording step on ` ctx`. -/
theorem claim1_parseDiff_cursor_algorithm_witness :
    searchHunk (hunkHeaderStr ['5'] (some ['2']) ['5'] (some ['3'])
        " tail".toList) = some 5 ∧
      parseDiffStep (5, []) " ctx".toList = (6, []) := by
  constructor
  · have h := claim1_parseDiff_cursor_algorithm.1 ['5'] ['5'] (some ['2'])
      (some ['3']) " tail".toList ⟨by decide, by decide⟩
      ⟨by decide, by decide⟩ ⟨by decide, by decide⟩ ⟨by decide, by decide⟩
    have e : digitsVal ['5'] = 5 := by decide
    rw [e] at h
    exact h
  · exact claim1_parseDiff_cursor_algorithm.2.2.2.1 (5, []) " ctx".toList
      (by decide) (by decide) (by decide)

/-! ### Diff parser: per-segment monotonicity (C10) -/

/-- One parser step only appends records, independently of the
accumulator. -/
theorem parseDiffStep_decomp (s : Nat) (acc : List Nat) (line : List Char) :
    parseDiffStep (s, acc) line =
      ((parseDiffStep (s, []) line).1,
        acc ++ (parseDiffStep (s, []) line).2) := by
  unfold parseDiffStep
  by_cases h1 : startsWithLit "@@".toList line = true
  · simp only [if_pos h1]
    cases searchHunk line <;> simp
  · simp only [if_neg h1]
    by_cases h2 : (startsWithLit "+".toList line &&
        !startsWithLit "+++".toList line) = true
    · simp only [if_pos h2]
      simp
    · simp only [if_neg h2]
      by_cases h3 : (!startsWithLit "\\".toList line) = true
      · simp only [if_pos h3]
        simp
      · simp only [if_neg h3]
        simp

/-- The whole fold only appends records, independently of the
accumulator. -/
theorem foldl_step_decomp (lines : List (List Char)) (s : Nat)
    (acc : List Nat) :
    lines.foldl parseDiffStep (s, acc) =
      ((lines.foldl parseDiffStep (s, [])).1,
        acc ++ (lines.foldl parseDiffStep (s, [])).2) := by
  induction lines generalizing s acc with
  | nil => simp
  | cons l ls ih =>
    simp only [List.foldl_cons]
    rcases hstep : parseDiffStep (s, []) l with ⟨s1, r1⟩
    rw [parseDiffStep_decomp s acc l, hstep]
    rw [ih s1 (acc ++ r1), ih s1 r1]
    simp [List.append_assoc]

/-- Within a run of lines containing no hunk header, the records are
strictly increasing, bounded below by the entry cursor and above by the
exit cursor. -/
theorem seg_records_increasing (seg : List (List Char)) :
    ∀ s : Nat, (∀ l ∈ seg, startsWithLit "@@".toList l = false) →
      List.Chain' (· < ·) ((seg.foldl parseDiffStep (s, [])).2) ∧
        (∀ x ∈ (seg.foldl parseDiffStep (s, [])).2, s ≤ x) ∧
        (∀ x ∈ (seg.foldl parseDiffStep (s, [])).2,
            x < (seg.foldl parseDiffStep (s, [])).1) ∧
        s ≤ (seg.foldl parseDiffStep (s, [])).1 := by
  induction seg with
  | nil => intro s h; simp
  | cons l ls ih =>
    intro s h
    have hl := h l (List.mem_cons_self _ _)
    have hrest := fun s' => ih s' fun m hm => h m (List.mem_cons_of_mem _ hm)
    simp only [List.foldl_cons]
    have hstep : parseDiffStep (s, []) l = (s + 1, [s]) ∨
        parseDiffStep (s, []) l = (s + 1, []) ∨
        parseDiffStep (s, []) l = (s, []) := by
      unfold parseDiffStep
      rw [if_neg (by intro hc; rw [hl] at hc; exact Bool.noConfusion hc)]
      by_cases h2 : (startsWithLit "+".toList l &&
          !startsWithLit "+++".toList l) = true
      · rw [if_pos h2]; left; rfl
      · rw [if_neg h2]
        by_cases h3 : (!startsWithLit "\\".toList l) = true
        · rw [if_pos h3]; right; left; rfl
        · rw [if_neg h3]; right; right; rfl
    rcases hstep with he | he | he <;> rw [he]
    · rw [foldl_step_decomp ls (s + 1) [s]]
      obtain ⟨ihc, ihlb, ihub, ihs⟩ := hrest (s + 1)
      refine ⟨?_, ?_, ?_, ?_⟩
      · rw [List.singleton_append, List.chain'_cons']
        exact ⟨fun y hy => Nat.lt_of_succ_le
            (ihlb y (List.mem_of_mem_head? hy)), ihc⟩
      · intro x hx
        rcases List.mem_cons.mp (by simpa using hx) with rfl | hx
        · exact Nat.le_refl _
        · exact Nat.le_of_succ_le (ihlb x hx)
      · intro x hx
        rcases List.mem_cons.mp (by simpa using hx) with rfl | hx
        · exact Nat.lt_of_succ_le ihs
        · exact ihub x hx
      · exact Nat.le_of_succ_le ihs
    · obtain ⟨ihc, ihlb, ihub, ihs⟩ := hrest (s + 1)
      exact ⟨ihc, fun x hx => Nat.le_of_succ_le (ihlb x hx), ihub,
        Nat.le_of_succ_le ihs⟩
    · exact hrest s

/-- C10: between one hunk-header line and the next (or the end of the
input), the line numbers recorded by `parseDiff` form a strictly
increasing sequence. -/
theorem claim10_parseDiff_segment_increasing :
    ∀ (input : String) (pre seg post : List (List Char)),
      jsSplit '\n' input.toList = pre ++ seg ++ post →
      (∀ line ∈ seg, startsWithLit "@@".toList line = false) →
      ∃ r q, parseDiff input =
          (pre.foldl parseDiffStep (0, [])).2 ++ r ++ q ∧
        List.Chain' (· < ·) r ∧
        ((pre ++ seg).foldl parseDiffStep (0, [])).2 =
          (pre.foldl parseDiffStep (0, [])).2 ++ r := by
  intro input pre seg post hsplit hseg
  rcases hp : pre.foldl parseDiffStep (0, []) with ⟨s1, a1⟩
  have hps : (pre ++ seg).foldl parseDiffStep (0, []) =
      ((seg.foldl parseDiffStep (s1, [])).1,
        a1 ++ (seg.foldl parseDiffStep (s1, [])).2) := by
    rw [List.foldl_append, hp, foldl_step_decomp seg s1 a1]
  refine ⟨(seg.foldl parseDiffStep (s1, [])).2,
    (post.foldl parseDiffStep ((seg.foldl parseDiffStep (s1, [])).1, [])).2,
    ?_, (seg_records_increasing seg s1 hseg).1, ?_⟩
  · unfold parseDiff
    rw [hsplit, List.foldl_append, List.foldl_append, hp,
      foldl_step_decomp seg s1 a1,
      foldl_step_decomp post ((seg.foldl parseDiffStep (s1, [])).1)
        (a1 ++ (seg.foldl parseDiffStep (s1, [])).2)]
  · rw [hps]

/-- Witness for C10 on the diff `@@ -1 +5 @@` / `+a` / `+b`. -/
theorem claim10_parseDiff_segment_increasing_witness :
    ∃ r q, parseDiff "@@ -1 +5 @@\n+a\n+b" =
        (["@@ -1 +5 @@".toList].foldl parseDiffStep (0, [])).2 ++ r ++ q ∧
      List.Chain' (· < ·) r ∧
      ((["@@ -1 +5 @@".toList] ++ ["+a".toList, "+b".toList]).foldl
          parseDiffStep (0, [])).2 =
        (["@@ -1 +5 @@".toList].foldl parseDiffStep (0, [])).2 ++ r :=
  claim10_parseDiff_segment_increasing "@@ -1 +5 @@\n+a\n+b"
    ["@@ -1 +5 @@".toList] ["+a".toList, "+b".toList] []
    (by decide) (by decide)

/-! ### Commit collector (C3, C4) -/

/-- Membership after adding a batch to the set. -/
theorem mem_setAddAll {α : Type} [DecidableEq α] (s xs : List α) (y : α) :
    y ∈ setAddAll s xs ↔ y ∈ s ∨ y ∈ xs := by
  induction xs generalizing s with
  | nil => simp [setAddAll]
  | cons x xt ih =>
    simp only [setAddAll, List.foldl_cons] at ih ⊢
    rw [ih (setAdd s x), mem_setAdd]
    constructor
    · rintro ((h | rfl) | h)
      · exact Or.inl h
      · exact Or.inr (List.mem_cons_self _ _)
      · exact Or.inr (List.mem_cons_of_mem _ h)
    · rintro (h | h)
      · exact Or.inl (Or.inl h)
      · rcases List.mem_cons.mp h with rfl | h
        · exact Or.inl (Or.inr rfl)
        · exact Or.inr h

/-- Batch set-add preserves distinctness. -/
theorem nodup_setAddAll {α : Type} [DecidableEq α] (s xs : List α)
    (h : s.Nodup) : (setAddAll s xs).Nodup := by
  induction xs generalizing s with
  | nil => simpa [setAddAll] using h
  | cons x xt ih => exact ih _ (nodup_setAdd s x h)

/-- `getCommits` is de-duplicated. -/
theorem getCommits_nodup (AUTHOR : String) (S U : Int)
    (repo : List GitCommit) : (getCommits AUTHOR S U repo).Nodup := by
  unfold getCommits
  exact nodup_setAddAll _ _
    (nodup_setAddAll _ _ (nodup_setAddAll _ _ List.nodup_nil))

/-- Membership in a filtered hash listing. -/
theorem mem_filter_map_hash (l : List GitCommit) (p : String → Bool)
    (h : String) :
    h ∈ (l.map GitCommit.hash).filter p ↔
      ∃ c ∈ l, c.hash = h ∧ p h = true := by
  rw [List.mem_filter, List.mem_map]
  constructor
  · rintro ⟨⟨c, hc, rfl⟩, hp⟩
    exact ⟨c, hc, rfl, hp⟩
  · rintro ⟨c, hc, rfl, hp⟩
    exact ⟨⟨c, hc, rfl⟩, hp⟩

/-- Membership in a modelled `git log` query. -/
theorem mem_gitLog (repo : List GitCommit) (pat : List Char) (lo hi : Int)
    (c : GitCommit) :
    c ∈ gitLog repo pat lo hi ↔
      c ∈ repo ∧ containsLit c.authorName.toList pat = true ∧
        lo ≤ c.time ∧ c.time ≤ hi := by
  unfold gitLog
  rw [List.mem_filter]
  simp [and_assoc]

/-- Membership in one hash-listing strategy (methods 1 and 2). -/
theorem mem_hashStrategy (repo : List GitCommit) (pat : List Char)
    (lo hi : Int) (h : String) :
    h ∈ ((gitLog repo pat lo hi).map GitCommit.hash).filter
        (fun hash => !(trimChars hash.toList).isEmpty) ↔
      ∃ c ∈ repo, c.hash = h ∧ lo ≤ c.time ∧ c.time ≤ hi ∧
        containsLit c.authorName.toList pat = true ∧
        (trimChars h.toList).isEmpty = false := by
  rw [mem_filter_map_hash]
  constructor
  · rintro ⟨c, hc, rfl, hp⟩
    rw [mem_gitLog] at hc
    exact ⟨c, hc.1, rfl, hc.2.2.1, hc.2.2.2, hc.2.1, by simpa using hp⟩
  · rintro ⟨c, hc, rfl, hlo, hhi, hm, htr⟩
    exact ⟨c, (mem_gitLog repo pat lo hi c).mpr ⟨hc, hm, hlo, hhi⟩, rfl,
      by simpa using htr⟩

/-- Membership in the post-filtered method-3 listing. -/
theorem mem_partialStrategy (repo : List GitCommit) (pat q1 q2 : List Char)
    (lo hi : Int) (h : String) :
    h ∈ (((gitLog repo pat lo hi).filter fun c =>
          !(trimChars (c.hash.toList ++ ' ' :: c.authorName.toList)).isEmpty).filter
            fun c =>
              containsLit (lowerChars c.authorName.toList) q1 &&
                containsLit (lowerChars c.authorName.toList) q2).map
        GitCommit.hash ↔
      ∃ c ∈ repo, c.hash = h ∧ lo ≤ c.time ∧ c.time ≤ hi ∧
        containsLit c.authorName.toList pat = true ∧
        (trimChars (c.hash.toList ++ ' ' :: c.authorName.toList)).isEmpty
            = false ∧
        containsLit (lowerChars c.authorName.toList) q1 = true ∧
        containsLit (lowerChars c.authorName.toList) q2 = true := by
  rw [List.mem_map]
  constructor
  · rintro ⟨c, hc, rfl⟩
    rw [List.mem_filter] at hc
    obtain ⟨hc1, hpost⟩ := hc
    rw [List.mem_filter] at hc1
    obtain ⟨hc0, htrl⟩ := hc1
    rw [mem_gitLog] at hc0
    rw [Bool.and_eq_true] at hpost
    exact ⟨c, hc0.1, rfl, hc0.2.2.1, hc0.2.2.2, hc0.2.1,
      by simpa using htrl, hpost.1, hpost.2⟩
  · rintro ⟨c, hc, rfl, hlo, hhi, hm, htrl, hq1, hq2⟩
    refine ⟨c, ?_, rfl⟩
    rw [List.mem_filter]
    refine ⟨?_, by rw [hq1, hq2]; rfl⟩
    rw [List.mem_filter]
    exact ⟨(mem_gitLog repo pat lo hi c).mpr ⟨hc, hm, hlo, hhi⟩,
      by simpa using htrl⟩

/-- Membership in `getCommits`: exactly the union of the three
author-matching strategies over the full-day window. -/
theorem getCommits_mem_iff (AUTHOR : String) (S U : Int)
    (repo : List GitCommit) (h : String) :
    h ∈ getCommits AUTHOR S U repo ↔
      ((∃ c ∈ repo, c.hash = h ∧
          dayStart S ≤ c.time ∧ c.time ≤ dayEnd U ∧
          containsLit c.authorName.toList AUTHOR.toList = true ∧
          (trimChars h.toList).isEmpty = false) ∨
        ((jsSplit ' ' AUTHOR.toList).length ≥ 2 ∧
          ∃ c ∈ repo, c.hash = h ∧
            dayStart S ≤ c.time ∧ c.time ≤ dayEnd U ∧
            containsLit c.authorName.toList
              ((jsSplit ' ' AUTHOR.toList).getLastD [] ++ ", ".toList ++
                List.intercalate " ".toList
                  (jsSplit ' ' AUTHOR.toList).dropLast) = true ∧
            (trimChars h.toList).isEmpty = false) ∨
        (∃ c ∈ repo, c.hash = h ∧
          dayStart S ≤ c.time ∧ c.time ≤ dayEnd U ∧
          containsLit c.authorName.toList
            ((jsSplit ' ' AUTHOR.toList).headD []) = true ∧
          (trimChars (c.hash.toList ++ ' ' :: c.authorName.toList)).isEmpty
              = false ∧
          containsLit (lowerChars c.authorName.toList)
            (lowerChars ((jsSplit ' ' AUTHOR.toList).headD [])) = true ∧
          containsLit (lowerChars c.authorName.toList)
            (lowerChars ((jsSplit ' ' AUTHOR.toList).getLastD [])) = true)) := by
  simp only [getCommits, mem_setAddAll, List.not_mem_nil, false_or]
  by_cases hlen : (jsSplit ' ' AUTHOR.toList).length ≥ 2
  · rw [if_pos hlen, mem_hashStrategy, mem_hashStrategy, mem_partialStrategy]
    simp only [hlen, true_and]
    rw [or_assoc]
  · rw [if_neg hlen, mem_hashStrategy, mem_partialStrategy]
    simp only [List.not_mem_nil, or_false, false_or]
    have h2 : ¬ ((jsSplit ' ' AUTHOR.toList).length ≥ 2 ∧
        ∃ c ∈ repo, c.hash = h ∧
          dayStart S ≤ c.time ∧ c.time ≤ dayEnd U ∧
          containsLit c.authorName.toList
            ((jsSplit ' ' AUTHOR.toList).getLastD [] ++ ", ".toList ++
              List.intercalate " ".toList
                (jsSplit ' ' AUTHOR.toList).dropLast) = true ∧
          (trimChars h.toList).isEmpty = false) := fun hc => hlen hc.1
    constructor
    · rintro (hm | hm)
      · exact Or.inl hm
      · exact Or.inr (Or.inr hm)
    · rintro (hm | hm | hm)
      · exact Or.inl hm
      · exact absurd hm h2
      · exact Or.inr hm

/-- C3: `getCommits` returns a de-duplicated sequence equal to the union
of three strategies — exact author-substring match, the "Last, First"
reversed-name retry, and the first-name-token retry post-filtered to
authors containing both the first and last name-tokens
case-insensitively — and a commit recorded under "Doe, Jane" is returned
for the display name "Jane Doe". -/
theorem claim3_getCommits_three_strategy_union :
    (∀ (AUTHOR : String) (S U : Int) (repo : List GitCommit),
        (getCommits AUTHOR S U repo).Nodup) ∧
      (∀ (AUTHOR : String) (S U : Int) (repo : List GitCommit) (h : String),
          h ∈ getCommits AUTHOR S U repo ↔
            ((∃ c ∈ repo, c.hash = h ∧
                dayStart S ≤ c.time ∧ c.time ≤ dayEnd U ∧
                containsLit c.authorName.toList AUTHOR.toList = true ∧
                (trimChars h.toList).isEmpty = false) ∨
              ((jsSplit ' ' AUTHOR.toList).length ≥ 2 ∧
                ∃ c ∈ repo, c.hash = h ∧
                  dayStart S ≤ c.time ∧ c.time ≤ dayEnd U ∧
                  containsLit c.authorName.toList
                    ((jsSplit ' ' AUTHOR.toList).getLastD [] ++ ", ".toList ++
                      List.intercalate " ".toList
                        (jsSplit ' ' AUTHOR.toList).dropLast) = true ∧
                  (trimChars h.toList).isEmpty = false) ∨
              (∃ c ∈ repo, c.hash = h ∧
                dayStart S ≤ c.time ∧ c.time ≤ dayEnd U ∧
                containsLit c.authorName.toList
                  ((jsSplit ' ' AUTHOR.toList).headD []) = true ∧
                (trimChars (c.hash.toList ++ ' ' :: c.authorName.toList)).isEmpty
                    = false ∧
                containsLit (lowerChars c.authorName.toList)
                  (lowerChars ((jsSplit ' ' AUTHOR.toList).headD [])) = true ∧
                containsLit (lowerChars c.authorName.toList)
                  (lowerChars ((jsSplit ' ' AUTHOR.toList).getLastD []))
                    = true))) ∧
      getCommits "Jane Doe" 0 0 [⟨"abc123", "Doe, Jane", 100⟩] =
        ["abc123"] :=
  ⟨getCommits_nodup, getCommits_mem_iff, by decide⟩

/-- C4: every result-bearing history query of `getCommits` restricts to
the window from `since` at 00:00:00 through `until` at 23:59:59: each
returned hash belongs to a commit inside that window, a matching commit
inside the window is returned, and in particular a matching commit
authored at any time during the `until` calendar day is returned. -/
theorem claim4_getCommits_full_day_window :
    (∀ (AUTHOR : String) (S U : Int) (repo : List GitCommit) (h : String),
        h ∈ getCommits AUTHOR S U repo →
          ∃ c ∈ repo, c.hash = h ∧
            dayStart S ≤ c.time ∧ c.time ≤ dayEnd U) ∧
      (∀ (AUTHOR : String) (S U : Int) (repo : List GitCommit)
          (c : GitCommit), c ∈ repo →
          containsLit c.authorName.toList AUTHOR.toList = true →
          (trimChars c.hash.toList).isEmpty = false →
          dayStart S ≤ c.time → c.time ≤ dayEnd U →
          c.hash ∈ getCommits AUTHOR S U repo) ∧
      (∀ (AUTHOR : String) (S U : Int) (repo : List GitCommit)
          (c : GitCommit), c ∈ repo → S ≤ U →
          containsLit c.authorName.toList AUTHOR.toList = true →
          (trimChars c.hash.toList).isEmpty = false →
          dayStart U ≤ c.time → c.time ≤ dayEnd U →
          c.hash ∈ getCommits AUTHOR S U repo) := by
  refine ⟨?_, ?_, ?_⟩
  · intro AUTHOR S U repo h hm
    rcases (getCommits_mem_iff AUTHOR S U repo h).mp hm with
      ⟨c, hc, rfl, hlo, hhi, -⟩ | ⟨-, c, hc, rfl, hlo, hhi, -⟩ |
      ⟨c, hc, rfl, hlo, hhi, -⟩ <;>
      exact ⟨c, hc, rfl, hlo, hhi⟩
  · intro AUTHOR S U repo c hc hm htr hlo hhi
    exact (getCommits_mem_iff AUTHOR S U repo c.hash).mpr
      (Or.inl ⟨c, hc, rfl, hlo, hhi, hm, htr⟩)
  · intro AUTHOR S U repo c hc hSU hm htr hlo hhi
    refine (getCommits_mem_iff AUTHOR S U repo c.hash).mpr
      (Or.inl ⟨c, hc, rfl, ?_, hhi, hm, htr⟩)
    have : dayStart S ≤ dayStart U := by
      unfold dayStart
      omega
    exact le_trans this hlo

/-- Witness for C4: a commit authored late on the `until` day is
returned. -/
theorem claim4_getCommits_full_day_window_witness :
    "abc" ∈ getCommits "Jane" 0 1 [⟨"abc", "Jane Doe", 172799⟩] :=
  claim4_getCommits_full_day_window.2.2 "Jane" 0 1
    [⟨"abc", "Jane Doe", 172799⟩] ⟨"abc", "Jane Doe", 172799⟩
    (List.mem_cons_self _ _) (by decide) (by decide) (by decide)
    (by decide) (by decide)

end GitData
